import Mathlib

/-!
Verification of the heightmap filter module (src/src/filters.ts) of
THREE.Terrain against its natural-language specification.

The elevation grid is embedded as a list of rationals: only the `z`
component of the `THREE.Vector3` vertices is ever read or written by the
filters, and the source's IEEE doubles perform exact arithmetic on the
rational inputs considered here, except where noted in comments
(division by zero, which JavaScript turns into `Infinity`/`NaN`; those
spots are flagged at each definition).
-/

/-- The elevation channel of the vertex array: `g[k].z` for each vertex. -/
abbrev Grid := List ℚ

/-- The fields of `TerrainOptions` read by the filters under study.
`maxHeight`/`minHeight` are taken as numeric here (the filters other than
`applyTerrainClamp` use them directly as numbers). -/
structure TerrainOptions where
  width : ℚ
  height : ℚ
  widthSegments : ℕ
  heightSegments : ℕ
  maxHeight : ℚ
  minHeight : ℚ

/-- Which edges the `Edges` filter affects. -/
structure EdgeFlags where
  top : Bool
  bottom : Bool
  left : Bool
  right : Bool

/-- The `Pick<TerrainOptions, 'maxHeight' | 'minHeight' | 'easing' | 'stretch'>`
record taken by `applyTerrainClamp`; `maxHeight`/`minHeight` are `Option`
because the source tests `typeof options.maxHeight !== 'number'`. The
`easing` field is modelled as always present (the source defaults it to
`Linear` when unset; callers in this development always pass one). -/
structure ClampOptions where
  maxHeight : Option ℚ
  minHeight : Option ℚ
  easing : ℚ → ℚ
  stretch : Bool

/-- Modelled from the spec: the default easing function `Linear` lives in
src/core.ts, which is not among the provided sources; the spec defines the
default easing for normalization as the identity ("identity ("Linear") for
normalization"). -/
def Linear (x : ℚ) : ℚ := x

/-- The running-minimum scan of `applyTerrainClamp` (`if (g[i].z < min) min = g[i].z`,
starting from `Infinity`). On a nonempty grid the `Infinity` sentinel is
overwritten by the first element; the empty case is never used by the
remap loop (an empty grid has no cells to remap). -/
def clampMin : Grid → ℚ
  | [] => 0
  | z :: t => t.foldl (fun m w => if w < m then w else m) z

/-- The running-maximum scan of `applyTerrainClamp`. -/
def clampMax : Grid → ℚ
  | [] => 0
  | z :: t => t.foldl (fun m w => if w > m then w else m) z

/-- `optMax = typeof options.maxHeight !== 'number' ? max : options.maxHeight`. -/
def clampOptMax (g : Grid) (o : ClampOptions) : ℚ :=
  match o.maxHeight with
  | some v => v
  | none => clampMax g

/-- `optMin = typeof options.minHeight !== 'number' ? min : options.minHeight`. -/
def clampOptMin (g : Grid) (o : ClampOptions) : ℚ :=
  match o.minHeight with
  | some v => v
  | none => clampMin g

/-- `targetMax = options.stretch ? optMax : (max < optMax ? max : optMax)`. -/
def clampTargetMax (g : Grid) (o : ClampOptions) : ℚ :=
  if o.stretch then clampOptMax g o
  else if clampMax g < clampOptMax g o then clampMax g else clampOptMax g o

/-- `targetMin = options.stretch ? optMin : (min > optMin ? min : optMin)`. -/
def clampTargetMin (g : Grid) (o : ClampOptions) : ℚ :=
  if o.stretch then clampOptMin g o
  else if clampMin g > clampOptMin g o then clampMin g else clampOptMin g o

/-- `range = targetMax - targetMin`, together with the degenerate-window
fallback `if (targetMax < targetMin) { targetMax = optMax; range = targetMax - targetMin; }`. -/
def clampRange (g : Grid) (o : ClampOptions) : ℚ :=
  if clampTargetMax g o < clampTargetMin g o then clampOptMax g o - clampTargetMin g o
  else clampTargetMax g o - clampTargetMin g o

/-- `applyTerrainClamp` (filters.ts lines 17-40): rescale the heightmap into
the target range. The remap loop writes
`g[i].z = easing((g[i].z - min) / actualRange) * range + optMin` — note the
offset is `optMin`, not `targetMin`. When `actualRange = 0` the source
divides by zero (JavaScript `NaN`); rational division makes that `0`, and
the degenerate case is treated separately in the theorems below. -/
def applyTerrainClamp (g : Grid) (o : ClampOptions) : Grid :=
  g.map fun z =>
    o.easing ((z - clampMin g) / (clampMax g - clampMin g)) * clampRange g o + clampOptMin g o

/-- `z' = minHeight + Math.abs((z - minHeight) * 2 - range)` for every cell
(`applyTurbulenceTurbulence`, filters.ts lines 354-359). -/
def applyTurbulenceTurbulence (g : Grid) (o : TerrainOptions) : Grid :=
  g.map fun z =>
    o.minHeight + |(z - o.minHeight) * 2 - (o.maxHeight - o.minHeight)|

/-- `heights.sort(function (a, b) { return a - b; })`: the copied elevations
in ascending order (`applyTerrainStep`). -/
def sortedHeights (g : Grid) : List ℚ :=
  List.insertionSort (· ≤ ·) g

/-- `inc = Math.floor(l / levels)`: the population size of each bucket. -/
def stepInc (l levels : ℕ) : ℕ := l / levels

/-- `heights.slice(i * inc, (i + 1) * inc)`: the sorted sub-population of
bucket `i`. -/
def bucketSlice (g : Grid) (levels i : ℕ) : List ℚ :=
  ((sortedHeights g).drop (i * stepInc g.length levels)).take (stepInc g.length levels)

/-- `buckets[i].avg = sum / subset.length` (rational `0/0 = 0` stands in for
the JavaScript `NaN` of an empty slice; an empty slice never matches any
cell, so its average is never committed). -/
def bucketAvg (g : Grid) (levels i : ℕ) : ℚ :=
  (bucketSlice g levels i).sum / ((bucketSlice g levels i).length : ℚ)

/-- `startHeight >= buckets[j].min && startHeight <= buckets[j].max`, where
`min`/`max` are the first and last element of the sorted slice; an empty
slice has `undefined` extremes and the JavaScript comparison is false. -/
def bucketMatches (g : Grid) (levels i : ℕ) (z : ℚ) : Bool :=
  match (bucketSlice g levels i).head?, (bucketSlice g levels i).getLast? with
  | some mn, some mx => decide (mn ≤ z ∧ z ≤ mx)
  | _, _ => false

/-- The toward-the-peak update shared by `Edges` and `RadialEdges`:
`max(g[k].z, (peak - g[k].z) * multiplier + g[k].z)` where `max` is
`Math.max` when `direction` is true and `Math.min` when it is false. -/
def pushVal (direction : Bool) (peak mult cur : ℚ) : ℚ :=
  if direction then max cur ((peak - cur) * mult + cur)
  else min cur ((peak - cur) * mult + cur)

/-- One in-place write `g[k].z = max(g[k].z, ...)` of the edge shapers. The
index is an integer because the source computes it with subtractions; a
negative or out-of-range index would fault in JavaScript (`g[k]` is
`undefined`) and is modelled as a no-op here — the claims under study only
exercise in-range indices. -/
def pushAt (g : Grid) (k : ℤ) (direction : Bool) (peak mult : ℚ) : Grid :=
  if 0 ≤ k then g.set k.toNat (pushVal direction peak mult (g.getD k.toNat 0)) else g

/-- `Math.floor(distance / segSize) || 1`: `|| 1` replaces a zero (or `NaN`,
from `segSize = Infinity` when a segment count is zero — rational division
by zero also yields floor `0`) with `1` and keeps any other value. -/
def segCount (distance segSize : ℚ) : ℤ :=
  if ⌊distance / segSize⌋ = 0 then 1 else ⌊distance / segSize⌋

/-- The row-major iteration sequence of a doubly nested loop
`for (i = 0; i < a; i++) for (j = 0; j < b; j++)`. -/
def pairList (a b : ℕ) : List (ℕ × ℕ) :=
  (List.range a).flatMap fun i => (List.range b).map fun j => (i, j)

/-- The body of the top/bottom pass of `Edges` at iteration `(i, j)`
(filters.ts lines 85-97). -/
def edgesRowBody (o : TerrainOptions) (direction : Bool) (easing : ℚ → ℚ)
    (nY : ℤ) (edges : EdgeFlags) (h : Grid) (ij : ℕ × ℕ) : Grid :=
  let peak := if direction then o.maxHeight else o.minHeight
  let xl : ℤ := o.widthSegments + 1
  let mult := easing (1 - (ij.2 : ℚ) / (nY : ℚ))
  let k1 : ℤ := (ij.2 : ℤ) * xl + (ij.1 : ℤ)
  let k2 : ℤ := ((o.heightSegments : ℤ) - (ij.2 : ℤ)) * xl + (ij.1 : ℤ)
  let h1 := if edges.top then pushAt h k1 direction peak mult else h
  if edges.bottom then pushAt h1 k2 direction peak mult else h1

/-- The body of the left/right pass of `Edges` at iteration `(i, j)`
(filters.ts lines 98-110). -/
def edgesColBody (o : TerrainOptions) (direction : Bool) (easing : ℚ → ℚ)
    (nX : ℤ) (edges : EdgeFlags) (h : Grid) (ij : ℕ × ℕ) : Grid :=
  let peak := if direction then o.maxHeight else o.minHeight
  let xl : ℤ := o.widthSegments + 1
  let mult := easing (1 - (ij.2 : ℚ) / (nX : ℚ))
  let k1 : ℤ := (ij.1 : ℤ) * xl + (ij.2 : ℤ)
  let k2 : ℤ := ((o.heightSegments : ℤ) - (ij.1 : ℤ)) * xl
    + ((o.widthSegments : ℤ) - (ij.2 : ℤ))
  let h1 := if edges.left then pushAt h k1 direction peak mult else h
  if edges.right then pushAt h1 k2 direction peak mult else h1

/-- The two shaping passes of `Edges` (filters.ts lines 74-110): everything
the function does before its final internal renormalization. -/
def edgesShape (g : Grid) (o : TerrainOptions) (direction : Bool) (distance : ℚ)
    (easing : ℚ → ℚ) (edges : EdgeFlags) : Grid :=
  let nX := segCount distance (o.width / (o.widthSegments : ℚ))
  let nY := segCount distance (o.height / (o.heightSegments : ℚ))
  let xl := o.widthSegments + 1
  let yl := o.heightSegments + 1
  let g1 := (pairList xl nY.toNat).foldl (edgesRowBody o direction easing nY edges) g
  (pairList yl nX.toNat).foldl (edgesColBody o direction easing nX edges) g1

/-- `Edges` (filters.ts lines 73-117): the two shaping passes followed by the
unconditional `applyTerrainClamp(g, {maxHeight, minHeight, stretch: true, easing: Linear})`.
The `easing = easing || EaseInOut` default is not modelled: an easing is
always passed explicitly here. -/
def Edges (g : Grid) (o : TerrainOptions) (direction : Bool) (distance : ℚ)
    (easing : ℚ → ℚ) (edges : EdgeFlags) : Grid :=
  applyTerrainClamp (edgesShape g o direction distance easing edges)
    ⟨some o.maxHeight, some o.minHeight, Linear, true⟩

/-- `edgeRadius = Math.min(options.width, options.height) * 0.5 - distance`. -/
def edgeRadius (o : TerrainOptions) (distance : ℚ) : ℚ :=
  min o.width o.height * (1 / 2) - distance

/-- `vertexDistance = Math.min(edgeRadius, Math.sqrt((xl2-i)*xSegmentSize*(xl2-i)*xSegmentSize + (yl2-j)*ySegmentSize*(yl2-j)*ySegmentSize) - distance)`.
`Math.sqrt` is an irrational operation on rationals, so it is passed in as
an abstract function `sqrtQ` applied to the radicand; every property proved
below holds for an arbitrary `sqrtQ`. -/
def radialVertexDistance (sqrtQ : ℚ → ℚ) (o : TerrainOptions) (distance : ℚ)
    (i j : ℕ) : ℚ :=
  let xl2 : ℚ := ((o.widthSegments : ℚ) + 1) * (1 / 2)
  let yl2 : ℚ := ((o.heightSegments : ℚ) + 1) * (1 / 2)
  let xSeg : ℚ := o.width / (o.widthSegments : ℚ)
  let ySeg : ℚ := o.height / (o.heightSegments : ℚ)
  min (edgeRadius o distance)
    (sqrtQ ((xl2 - (i : ℚ)) * xSeg * (xl2 - (i : ℚ)) * xSeg
      + (yl2 - (j : ℚ)) * ySeg * (yl2 - (j : ℚ)) * ySeg) - distance)

/-- The body of the `RadialEdges` loop at iteration `(i, j)` (filters.ts
lines 158-167): skip when `vertexDistance < 0`, otherwise push the cell
`j * xl + i` and its mirror `(heightSegments - j) * xl + i` toward the peak
with the same multiplier. -/
def radialBody (sqrtQ : ℚ → ℚ) (o : TerrainOptions) (direction : Bool)
    (distance : ℚ) (easing : ℚ → ℚ) (h : Grid) (ij : ℕ × ℕ) : Grid :=
  let peak := if direction then o.maxHeight else o.minHeight
  let xl : ℤ := o.widthSegments + 1
  let vd := radialVertexDistance sqrtQ o distance ij.1 ij.2
  if vd < 0 then h
  else
    let mult := easing (vd / edgeRadius o distance)
    let h1 := pushAt h ((ij.2 : ℤ) * xl + (ij.1 : ℤ)) direction peak mult
    pushAt h1 (((o.heightSegments : ℤ) - (ij.2 : ℤ)) * xl + (ij.1 : ℤ)) direction peak mult

/-- The number of iterations of the half-grid loop `for (j = 0; j < yl2; j++)`
of `RadialEdges`, where `yl2 = yl * 0.5` is a rational bound on an integer
counter: `j < yl / 2` over ℚ holds exactly for `j < (yl + 1) / 2` over ℕ
(proved in `radialHalfCount_spec` below). -/
def radialHalfCount (yl : ℕ) : ℕ := (yl + 1) / 2

/-- `RadialEdges` (filters.ts lines 146-169), parametrized by the abstract
square root `sqrtQ`. Unlike `Edges` there is no final renormalization. -/
def RadialEdges (sqrtQ : ℚ → ℚ) (g : Grid) (o : TerrainOptions) (direction : Bool)
    (distance : ℚ) (easing : ℚ → ℚ) : Grid :=
  let xl := o.widthSegments + 1
  let yl := o.heightSegments + 1
  (pairList xl (radialHalfCount yl)).foldl (radialBody sqrtQ o direction distance easing) g

/-- The values of the 3×3 neighborhood scan shared by the smoothers
(row offset `n` outer, column offset `m` inner), with the source's guard
`typeof g[key] !== 'undefined' && i+m >= 0 && j+n >= 0 && i+m < xl && j+n < yl`. -/
def neighborhoodVals (g : Grid) (xl yl : ℕ) (i j : ℕ) : List ℚ :=
  ([-1, 0, 1] : List ℤ).flatMap fun n =>
    ([-1, 0, 1] : List ℤ).filterMap fun m =>
      let key := ((j : ℤ) + n) * (xl : ℤ) + ((i : ℤ) + m)
      if 0 ≤ key ∧ key < (g.length : ℤ) ∧ 0 ≤ (i : ℤ) + m ∧ 0 ≤ (j : ℤ) + n
          ∧ (i : ℤ) + m < (xl : ℤ) ∧ (j : ℤ) + n < (yl : ℤ)
      then some (g.getD key.toNat 0) else none

/-- The diagonal-only variant used by `SmoothConservative`: the source's
guard additionally requires `n && m` (both offsets truthy, i.e. nonzero). -/
def diagNeighborVals (g : Grid) (xl yl : ℕ) (i j : ℕ) : List ℚ :=
  ([-1, 0, 1] : List ℤ).flatMap fun n =>
    ([-1, 0, 1] : List ℤ).filterMap fun m =>
      let key := ((j : ℤ) + n) * (xl : ℤ) + ((i : ℤ) + m)
      if 0 ≤ key ∧ key < (g.length : ℤ) ∧ n ≠ 0 ∧ m ≠ 0 ∧ 0 ≤ (i : ℤ) + m
          ∧ 0 ≤ (j : ℤ) + n ∧ (i : ℤ) + m < (xl : ℤ) ∧ (j : ℤ) + n < (yl : ℤ)
      then some (g.getD key.toNat 0) else none

/-- `applyTerrainSmooth` (filters.ts lines 185-207): mean of the in-bounds
3×3 neighborhood into a scratch buffer, then the weighted commit
`g[k].z = (heightmap[k] + g[k].z * weight) * (1 / (1 + weight))`. Scratch
cells the scan never writes keep the `Float64Array` zero default; a cell
with an empty neighborhood would be `0/0` (`NaN` in JavaScript, `0` here —
only reachable when `g.length < xl * yl`). -/
def applyTerrainSmooth (g : Grid) (o : TerrainOptions) (weight : ℚ) : Grid :=
  let xl := o.widthSegments + 1
  let yl := o.heightSegments + 1
  let hm : ℕ → ℚ := fun k =>
    if k / xl < yl then
      (neighborhoodVals g xl yl (k % xl) (k / xl)).sum
        / ((neighborhoodVals g xl yl (k % xl) (k / xl)).length : ℚ)
    else 0
  (List.range g.length).map fun k => (hm k + g.getD k 0 * weight) * (1 / (1 + weight))

/-- The median of a neighborhood: the source sorts the neighbor keys by
elevation and reads the middle elevation(s), which at the value level is
the middle of the ascending-sorted value list. An empty neighborhood (only
reachable when `g.length < xl * yl`; JavaScript would fault) yields the
`getD` default. -/
def medianOf (vals : List ℚ) : ℚ :=
  let s := List.insertionSort (· ≤ ·) vals
  if s.length % 2 = 1 then s.getD (s.length / 2) 0
  else (s.getD (s.length / 2 - 1) 0 + s.getD (s.length / 2) 0) * (1 / 2)

/-- `SmoothMedian` (filters.ts lines 214-249). -/
def SmoothMedian (g : Grid) (o : TerrainOptions) : Grid :=
  let xl := o.widthSegments + 1
  let yl := o.heightSegments + 1
  (List.range g.length).map fun k =>
    if k / xl < yl then medianOf (neighborhoodVals g xl yl (k % xl) (k / xl)) else 0

/-- The scratch value of one `SmoothConservative` cell: min/max of the
in-bounds diagonal neighbors (the source folds with `Infinity`/`-Infinity`
sentinels; an empty neighbor list leaves the sentinels in place, making
`middle` a `NaN` in JavaScript so that both clamp comparisons are false and
the cell keeps its elevation — modelled by the `[]` branch), then the
multiplier window around the midpoint and the clamp
`g[kk].z > max ? max : (g[kk].z < min ? min : g[kk].z)`. -/
def conservativeVal (g : Grid) (xl yl : ℕ) (mult : ℚ) (i j : ℕ) (z : ℚ) : ℚ :=
  match diagNeighborVals g xl yl i j with
  | [] => z
  | v :: vs =>
    let mn := vs.foldl (fun a b => if b < a then b else a) v
    let mx := vs.foldl (fun a b => if b > a then b else a) v
    let halfdiff := (mx - mn) * (1 / 2)
    let middle := mn + halfdiff
    let mx2 := middle + halfdiff * mult
    let mn2 := middle - halfdiff * mult
    if z > mx2 then mx2 else if z < mn2 then mn2 else z

/-- `SmoothConservative` (filters.ts lines 267-295): the aggregates read the
pre-pass grid `g` only (scratch-then-commit), the commit copies the scratch
buffer back. -/
def SmoothConservative (g : Grid) (o : TerrainOptions) (mult : ℚ) : Grid :=
  let xl := o.widthSegments + 1
  let yl := o.heightSegments + 1
  (List.range g.length).map fun k =>
    if k / xl < yl then conservativeVal g xl yl mult (k % xl) (k / xl) (g.getD k 0) else 0

/-- `applyTerrainStep` (filters.ts lines 307-347) with an explicit `levels`
argument (the claims under study always supply one; the
`(g.length/2)^(1/4)` default of the `undefined` branch is not needed).
Each cell scans the buckets in order and takes the average of the first
bucket whose `[min, max]` contains its elevation, keeping its original
elevation when none matches. -/
def applyTerrainStep (g : Grid) (levels : ℕ) : Grid :=
  g.map fun z =>
    match (List.range levels).find? (fun i => bucketMatches g levels i z) with
    | some i => bucketAvg g levels i
    | none => z

/-! ### Basic facts about the running min/max scans and list access -/

theorem foldlMin_le_init (t : List ℚ) (a : ℚ) :
    t.foldl (fun m w => if w < m then w else m) a ≤ a := by
  induction t generalizing a with
  | nil => exact le_refl a
  | cons w t ih =>
    refine le_trans (ih _) ?_
    by_cases h : w < a
    · simp [h, le_of_lt h]
    · simp [h]

theorem foldlMin_le_mem (t : List ℚ) (a w : ℚ) (hw : w ∈ t) :
    t.foldl (fun m w => if w < m then w else m) a ≤ w := by
  induction t generalizing a with
  | nil => cases hw
  | cons v t ih =>
    simp only [List.foldl_cons]
    rcases List.mem_cons.mp hw with h | h
    · subst h
      refine le_trans (foldlMin_le_init t _) ?_
      by_cases hlt : w < a
      · rw [if_pos hlt]
      · rw [if_neg hlt]
        exact le_of_not_lt hlt
    · exact ih _ h

theorem foldlMin_mem (t : List ℚ) (a : ℚ) :
    t.foldl (fun m w => if w < m then w else m) a ∈ a :: t := by
  induction t generalizing a with
  | nil => simp
  | cons w t ih =>
    have h0 := ih (if w < a then w else a)
    simp only [List.foldl_cons]
    rcases List.mem_cons.mp h0 with h | h
    · rw [h]
      by_cases hlt : w < a
      · rw [if_pos hlt]
        exact List.mem_cons_of_mem a (List.mem_cons_self w t)
      · rw [if_neg hlt]
        exact List.mem_cons_self a (w :: t)
    · exact List.mem_cons_of_mem a (List.mem_cons_of_mem w h)

theorem foldlMax_le_init (t : List ℚ) (a : ℚ) :
    a ≤ t.foldl (fun m w => if w > m then w else m) a := by
  induction t generalizing a with
  | nil => exact le_refl a
  | cons w t ih =>
    refine le_trans ?_ (ih _)
    by_cases h : w > a
    · simp [h, le_of_lt h]
    · simp [h]

theorem foldlMax_le_mem (t : List ℚ) (a w : ℚ) (hw : w ∈ t) :
    w ≤ t.foldl (fun m w => if w > m then w else m) a := by
  induction t generalizing a with
  | nil => cases hw
  | cons v t ih =>
    simp only [List.foldl_cons]
    rcases List.mem_cons.mp hw with h | h
    · subst h
      refine le_trans ?_ (foldlMax_le_init t _)
      by_cases hlt : w > a
      · rw [if_pos hlt]
      · rw [if_neg hlt]
        exact le_of_not_lt hlt
    · exact ih _ h

theorem foldlMax_mem (t : List ℚ) (a : ℚ) :
    t.foldl (fun m w => if w > m then w else m) a ∈ a :: t := by
  induction t generalizing a with
  | nil => simp
  | cons w t ih =>
    have h0 := ih (if w > a then w else a)
    simp only [List.foldl_cons]
    rcases List.mem_cons.mp h0 with h | h
    · rw [h]
      by_cases hlt : w > a
      · rw [if_pos hlt]
        exact List.mem_cons_of_mem a (List.mem_cons_self w t)
      · rw [if_neg hlt]
        exact List.mem_cons_self a (w :: t)
    · exact List.mem_cons_of_mem a (List.mem_cons_of_mem w h)

theorem clampMin_le (g : Grid) (z : ℚ) (hz : z ∈ g) : clampMin g ≤ z := by
  match g with
  | [] => cases hz
  | w :: t =>
    rcases List.mem_cons.mp hz with h | h
    · subst h; exact foldlMin_le_init t z
    · exact foldlMin_le_mem t w z h

theorem le_clampMax (g : Grid) (z : ℚ) (hz : z ∈ g) : z ≤ clampMax g := by
  match g with
  | [] => cases hz
  | w :: t =>
    rcases List.mem_cons.mp hz with h | h
    · subst h; exact foldlMax_le_init t z
    · exact foldlMax_le_mem t w z h

theorem clampMin_mem (g : Grid) (hg : g ≠ []) : clampMin g ∈ g := by
  match g with
  | [] => exact absurd rfl hg
  | w :: t => exact foldlMin_mem t w

theorem clampMax_mem (g : Grid) (hg : g ≠ []) : clampMax g ∈ g := by
  match g with
  | [] => exact absurd rfl hg
  | w :: t => exact foldlMax_mem t w

theorem getD_map_of_lt (f : ℚ → ℚ) (g : List ℚ) (k : ℕ) (hk : k < g.length) :
    (g.map f).getD k 0 = f (g.getD k 0) := by
  simp [List.getD_eq_getElem?_getD, List.getElem?_map, List.getElem?_eq_getElem hk]

theorem getD_mem_of_lt (g : List ℚ) (k : ℕ) (hk : k < g.length) :
    g.getD k 0 ∈ g := by
  rw [List.getD_eq_getElem?_getD, List.getElem?_eq_getElem hk]
  exact List.getElem_mem hk

theorem radialHalfCount_spec (yl j : ℕ) :
    j < radialHalfCount yl ↔ (j : ℚ) < (yl : ℚ) / 2 := by
  unfold radialHalfCount
  rw [lt_div_iff₀ (by norm_num : (0 : ℚ) < 2)]
  have h2 : ((j : ℚ) * 2 < (yl : ℚ)) ↔ (j * 2 < yl) := by exact_mod_cast Iff.rfl
  rw [h2]
  omega

/-! ### The Range Normalizer: bounds, degenerate range, idempotence -/

theorem foldlMin_map (phi : ℚ → ℚ) (hphi : StrictMono phi) (t : List ℚ) (a : ℚ) :
    (t.map phi).foldl (fun m w => if w < m then w else m) (phi a)
      = phi (t.foldl (fun m w => if w < m then w else m) a) := by
  induction t generalizing a with
  | nil => rfl
  | cons w t ih =>
    simp only [List.map_cons, List.foldl_cons]
    have hcomm : (if phi w < phi a then phi w else phi a) = phi (if w < a then w else a) := by
      by_cases hlt : w < a
      · rw [if_pos hlt, if_pos (hphi hlt)]
      · rw [if_neg hlt, if_neg (fun hc => hlt (hphi.lt_iff_lt.mp hc))]
    rw [hcomm, ih]

theorem foldlMax_map (phi : ℚ → ℚ) (hphi : StrictMono phi) (t : List ℚ) (a : ℚ) :
    (t.map phi).foldl (fun m w => if w > m then w else m) (phi a)
      = phi (t.foldl (fun m w => if w > m then w else m) a) := by
  induction t generalizing a with
  | nil => rfl
  | cons w t ih =>
    simp only [List.map_cons, List.foldl_cons]
    have hcomm : (if phi w > phi a then phi w else phi a) = phi (if w > a then w else a) := by
      by_cases hlt : w > a
      · rw [if_pos hlt, if_pos (hphi hlt)]
      · rw [if_neg hlt, if_neg (fun hc => hlt (hphi.lt_iff_lt.mp hc))]
    rw [hcomm, ih]

theorem clampMin_map (phi : ℚ → ℚ) (hphi : StrictMono phi) (g : Grid) (hg : g ≠ []) :
    clampMin (g.map phi) = phi (clampMin g) := by
  match g with
  | [] => exact absurd rfl hg
  | w :: t =>
    simp only [List.map_cons, clampMin]
    exact foldlMin_map phi hphi t w

theorem clampMax_map (phi : ℚ → ℚ) (hphi : StrictMono phi) (g : Grid) (hg : g ≠ []) :
    clampMax (g.map phi) = phi (clampMax g) := by
  match g with
  | [] => exact absurd rfl hg
  | w :: t =>
    simp only [List.map_cons, clampMax]
    exact foldlMax_map phi hphi t w

/-- C1. The claim as written fails: the remap loop offsets each eased value
by `optMin`, not by `targetMin`, so with `stretch = false` the result can
leave `[min(targetMin, targetMax), max(targetMin, targetMax)]`. On the grid
`[5, 7]` with `maxHeight = 6`, `minHeight = 0`, `stretch = false` and the
identity easing (a non-degenerate input: `actualRange = 2 > 0`), cell 0
comes out as `0`, strictly below `min(targetMin, targetMax) = 5`. -/
theorem clamp_bounds_counterexample :
    0 < clampMax [5, 7] - clampMin [5, 7] ∧
    (applyTerrainClamp [5, 7] ⟨some 6, some 0, Linear, false⟩).getD 0 0
      < min (clampTargetMin [5, 7] ⟨some 6, some 0, Linear, false⟩)
          (clampTargetMax [5, 7] ⟨some 6, some 0, Linear, false⟩) := by
  constructor
  · norm_num [clampMax, clampMin]
  · norm_num [applyTerrainClamp, clampMax, clampMin, clampRange, clampTargetMin,
      clampTargetMax, clampOptMin, clampOptMax, Linear]

/-- C1 (amended): for a non-degenerate grid and an easing mapping `[0, 1]`
into `[0, 1]`, `applyTerrainClamp` remaps each cell to
`easing((z - min) / actualRange) * range + optMin` where
`range = targetMax - targetMin` (after the degenerate-window fallback), and
every output elevation lies within
`[optMin + min(0, range), optMin + max(0, range)]`; with `stretch = true`
this interval is exactly `[min(targetMin, targetMax), max(targetMin, targetMax)]`
of the original claim, since there `optMin = targetMin`. -/
theorem clamp_bounds (g : Grid) (o : ClampOptions)
    (hrange : 0 < clampMax g - clampMin g)
    (heas : ∀ t : ℚ, 0 ≤ t → t ≤ 1 → 0 ≤ o.easing t ∧ o.easing t ≤ 1) :
    ∀ k : ℕ, k < g.length →
      (applyTerrainClamp g o).getD k 0
          = o.easing ((g.getD k 0 - clampMin g) / (clampMax g - clampMin g))
              * clampRange g o + clampOptMin g o ∧
      clampOptMin g o + min 0 (clampRange g o) ≤ (applyTerrainClamp g o).getD k 0 ∧
      (applyTerrainClamp g o).getD k 0 ≤ clampOptMin g o + max 0 (clampRange g o) := by
  intro k hk
  have hget : (applyTerrainClamp g o).getD k 0
      = o.easing ((g.getD k 0 - clampMin g) / (clampMax g - clampMin g))
          * clampRange g o + clampOptMin g o := by
    unfold applyTerrainClamp
    exact getD_map_of_lt _ g k hk
  refine ⟨hget, ?_, ?_⟩ <;> rw [hget]
  all_goals {
    have hmem := getD_mem_of_lt g k hk
    have h1 : 0 ≤ g.getD k 0 - clampMin g := sub_nonneg.mpr (clampMin_le g _ hmem)
    have h2 : g.getD k 0 - clampMin g ≤ clampMax g - clampMin g := by
      have := le_clampMax g _ hmem
      linarith
    have ht0 : 0 ≤ (g.getD k 0 - clampMin g) / (clampMax g - clampMin g) :=
      div_nonneg h1 (le_of_lt hrange)
    have ht1 : (g.getD k 0 - clampMin g) / (clampMax g - clampMin g) ≤ 1 :=
      (div_le_one hrange).mpr h2
    have he := heas _ ht0 ht1
    have hmin1 := min_le_left (0 : ℚ) (clampRange g o)
    have hmin2 := min_le_right (0 : ℚ) (clampRange g o)
    have hmax1 := le_max_left (0 : ℚ) (clampRange g o)
    have hmax2 := le_max_right (0 : ℚ) (clampRange g o)
    rcases le_or_lt 0 (clampRange g o) with hR | hR
    · have hlow : 0 ≤ o.easing ((g.getD k 0 - clampMin g) / (clampMax g - clampMin g))
          * clampRange g o := mul_nonneg he.1 hR
      have hhigh : o.easing ((g.getD k 0 - clampMin g) / (clampMax g - clampMin g))
          * clampRange g o ≤ clampRange g o := by
        nlinarith [he.1, he.2]
      linarith
    · have hlow : clampRange g o
          ≤ o.easing ((g.getD k 0 - clampMin g) / (clampMax g - clampMin g))
            * clampRange g o := by
        nlinarith [he.1, he.2]
      have hhigh : o.easing ((g.getD k 0 - clampMin g) / (clampMax g - clampMin g))
          * clampRange g o ≤ 0 := by
        nlinarith [he.1]
      linarith
  }

/-- Witness for `clamp_bounds` at the grid `[0, 2]`, `maxHeight = 1`,
`minHeight = 0`, `stretch = true`, identity easing, cell 0. -/
theorem clamp_bounds_witness :
    0 < clampMax [0, 2] - clampMin [0, 2] ∧
    ((applyTerrainClamp [0, 2] ⟨some 1, some 0, Linear, true⟩).getD 0 0
        = Linear ((([0, 2] : Grid).getD 0 0 - clampMin [0, 2]) / (clampMax [0, 2] - clampMin [0, 2]))
            * clampRange [0, 2] ⟨some 1, some 0, Linear, true⟩
            + clampOptMin [0, 2] ⟨some 1, some 0, Linear, true⟩ ∧
      clampOptMin [0, 2] ⟨some 1, some 0, Linear, true⟩
          + min 0 (clampRange [0, 2] ⟨some 1, some 0, Linear, true⟩)
        ≤ (applyTerrainClamp [0, 2] ⟨some 1, some 0, Linear, true⟩).getD 0 0 ∧
      (applyTerrainClamp [0, 2] ⟨some 1, some 0, Linear, true⟩).getD 0 0
        ≤ clampOptMin [0, 2] ⟨some 1, some 0, Linear, true⟩
            + max 0 (clampRange [0, 2] ⟨some 1, some 0, Linear, true⟩)) := by
  refine ⟨by norm_num [clampMax, clampMin],
    clamp_bounds [0, 2] ⟨some 1, some 0, Linear, true⟩ (by norm_num [clampMax, clampMin])
      ?_ 0 (by norm_num)⟩
  intro t ht0 ht1
  exact ⟨ht0, ht1⟩

/-- The 5×5 all-fives grid of the C4 scenario. -/
def flatGrid : Grid := List.replicate 25 5

set_option maxRecDepth 8000 in
/-- C4. On the perfectly flat 5×5 grid the discovered range is degenerate:
`actualRange = max - min = 0`, so the remap loop divides by zero —
in JavaScript every `(z - min) / 0` is `NaN` and the grid silently fills
with non-numeric values; no `DegenerateRangeError` (or any error) exists in
the source. In the total rational model the junk division yields `0`, so
the call collapses the grid to `optMin = 0` everywhere, exhibiting the
silent (garbage) completion at the claim's exact scenario. -/
theorem clamp_degenerate_flat :
    clampMax flatGrid - clampMin flatGrid = 0 ∧
    applyTerrainClamp flatGrid ⟨some 10, some 0, Linear, false⟩ = List.replicate 25 0 := by
  constructor
  · norm_num [flatGrid, clampMax, clampMin, List.replicate]
  · norm_num [flatGrid, applyTerrainClamp, clampMax, clampMin, clampRange, clampTargetMin,
      clampTargetMax, clampOptMin, clampOptMax, Linear, List.replicate]

/-- C5. The claim as written quantifies over every easing function; it fails
already for the easing `t ↦ t²` (which does map `[0, 1]` into `[0, 1]`):
on the non-flat grid `[0, 1, 2]` with `maxHeight = 1`, `minHeight = 0`,
`stretch = true`, one application gives `[0, 1/4, 1]` but a second
application squares the normalized positions again, giving `[0, 1/16, 1]`. -/
theorem clamp_idempotent_counterexample :
    clampMin [0, 1, 2] < clampMax [0, 1, 2] ∧
    applyTerrainClamp (applyTerrainClamp [0, 1, 2] ⟨some 1, some 0, fun t => t * t, true⟩)
        ⟨some 1, some 0, fun t => t * t, true⟩
      ≠ applyTerrainClamp [0, 1, 2] ⟨some 1, some 0, fun t => t * t, true⟩ := by
  constructor
  · norm_num [clampMax, clampMin]
  · norm_num [applyTerrainClamp, clampMax, clampMin, clampRange, clampTargetMin,
      clampTargetMax, clampOptMin, clampOptMax]

/-- C5 (amended): with the default `Linear` (identity) easing,
`minHeight < maxHeight` and `stretch = true`, applying `applyTerrainClamp`
twice to a non-flat grid equals applying it once. -/
theorem clamp_idempotent (g : Grid) (mH MH : ℚ) (hMm : mH < MH)
    (hflat : clampMin g < clampMax g) :
    applyTerrainClamp (applyTerrainClamp g ⟨some MH, some mH, Linear, true⟩)
        ⟨some MH, some mH, Linear, true⟩
      = applyTerrainClamp g ⟨some MH, some mH, Linear, true⟩ := by
  have hg : g ≠ [] := by
    intro h
    rw [h] at hflat
    exact lt_irrefl _ hflat
  have haR : 0 < clampMax g - clampMin g := sub_pos.mpr hflat
  have hR : 0 < MH - mH := sub_pos.mpr hMm
  have hrange : clampRange g ⟨some MH, some mH, Linear, true⟩ = MH - mH := by
    unfold clampRange clampTargetMax clampTargetMin clampOptMax clampOptMin
    simp [not_lt.mpr (le_of_lt hMm)]
  have hoptmin : clampOptMin g ⟨some MH, some mH, Linear, true⟩ = mH := rfl
  set phi : ℚ → ℚ :=
    fun z => Linear ((z - clampMin g) / (clampMax g - clampMin g)) * (MH - mH) + mH with hphi
  have happ : applyTerrainClamp g ⟨some MH, some mH, Linear, true⟩ = g.map phi := by
    unfold applyTerrainClamp
    rw [hrange, hoptmin]
  have hmono : StrictMono phi := by
    intro a b hab
    simp only [hphi, Linear]
    have h1 : (a - clampMin g) / (clampMax g - clampMin g)
        < (b - clampMin g) / (clampMax g - clampMin g) :=
      div_lt_div_of_pos_right (by linarith) haR
    have h2 := mul_lt_mul_of_pos_right h1 hR
    linarith
  have hmin1 : clampMin (g.map phi) = mH := by
    rw [clampMin_map phi hmono g hg]
    simp only [hphi, Linear]
    rw [sub_self, zero_div, zero_mul, zero_add]
  have hmax1 : clampMax (g.map phi) = MH := by
    rw [clampMax_map phi hmono g hg]
    simp only [hphi, Linear]
    rw [div_self (ne_of_gt haR), one_mul]
    ring
  have hrange1 : clampRange (g.map phi) ⟨some MH, some mH, Linear, true⟩ = MH - mH := by
    unfold clampRange clampTargetMax clampTargetMin clampOptMax clampOptMin
    simp [not_lt.mpr (le_of_lt hMm)]
  rw [happ]
  unfold applyTerrainClamp
  rw [hrange1, hmin1, hmax1]
  have hid : ∀ w : ℚ,
      Linear ((w - mH) / (MH - mH)) * (MH - mH) + mH = w := by
    intro w
    simp only [Linear]
    rw [div_mul_cancel₀ _ (ne_of_gt hR)]
    ring
  refine (List.map_congr_left (fun w _ => ?_)).trans (List.map_id' (g.map phi))
  exact hid w

/-- Witness for `clamp_idempotent` at the grid `[0, 1]` with
`maxHeight = 2`, `minHeight = 0`. -/
theorem clamp_idempotent_witness :
    (0 : ℚ) < 2 ∧ clampMin [0, 1] < clampMax [0, 1] ∧
    applyTerrainClamp (applyTerrainClamp [0, 1] ⟨some 2, some 0, Linear, true⟩)
        ⟨some 2, some 0, Linear, true⟩
      = applyTerrainClamp [0, 1] ⟨some 2, some 0, Linear, true⟩ := by
  refine ⟨by norm_num, by norm_num [clampMax, clampMin], ?_⟩
  exact clamp_idempotent [0, 1] 0 2 (by norm_num) (by norm_num [clampMax, clampMin])

/-! ### Turbulence Transform and Step Quantizer boundary policy -/

/-- C8. `applyTurbulenceTurbulence` maps each cell `z` to
`minHeight + |(z - minHeight) * 2 - (maxHeight - minHeight)|`; two inputs
symmetric about the range midpoint produce the same output, and in
particular with `minHeight = 0`, `maxHeight = 10` the inputs `2` and `8`
both map to `6`. -/
theorem turbulence_formula :
    (∀ (g : Grid) (o : TerrainOptions) (k : ℕ), k < g.length →
      (applyTurbulenceTurbulence g o).getD k 0
        = o.minHeight + |(g.getD k 0 - o.minHeight) * 2 - (o.maxHeight - o.minHeight)|) ∧
    (∀ (o : TerrainOptions) (z : ℚ),
      applyTurbulenceTurbulence [z] o
        = applyTurbulenceTurbulence [o.minHeight + o.maxHeight - z] o) ∧
    applyTurbulenceTurbulence [2, 8] ⟨1, 1, 1, 1, 10, 0⟩ = [6, 6] := by
  refine ⟨?_, ?_, ?_⟩
  · intro g o k hk
    unfold applyTurbulenceTurbulence
    exact getD_map_of_lt _ g k hk
  · intro o z
    unfold applyTurbulenceTurbulence
    simp only [List.map_cons, List.map_nil]
    have habs : (z - o.minHeight) * 2 - (o.maxHeight - o.minHeight)
        = -((o.minHeight + o.maxHeight - z - o.minHeight) * 2 - (o.maxHeight - o.minHeight)) := by
      ring
    rw [habs, abs_neg]
  · norm_num [applyTurbulenceTurbulence]

/-- Witness for the quantified conjunct of `turbulence_formula` at the
one-cell grid `[2]` with `minHeight = 0`, `maxHeight = 10`. -/
theorem turbulence_formula_witness :
    0 < ([2] : Grid).length ∧
    (applyTurbulenceTurbulence [2] ⟨1, 1, 1, 1, 10, 0⟩).getD 0 0
      = (⟨1, 1, 1, 1, 10, 0⟩ : TerrainOptions).minHeight
        + |(([2] : Grid).getD 0 0 - (⟨1, 1, 1, 1, 10, 0⟩ : TerrainOptions).minHeight) * 2
          - ((⟨1, 1, 1, 1, 10, 0⟩ : TerrainOptions).maxHeight
            - (⟨1, 1, 1, 1, 10, 0⟩ : TerrainOptions).minHeight)| :=
  ⟨by norm_num, turbulence_formula.1 [2] ⟨1, 1, 1, 1, 10, 0⟩ 0 (by norm_num)⟩

/-- C6. A cell whose elevation is contained in no bucket's `[min, max]`
interval keeps its original elevation unchanged: the replacement loop only
writes when a bucket matches, so an unmatched cell is left as-is (a
boundary policy, not a failure — the call still completes normally, as the
preservation of every other cell and of the grid length shows elsewhere). -/
theorem step_unmatched_keeps (g : Grid) (levels i : ℕ) (hi : i < g.length)
    (h : ∀ j, j < levels → bucketMatches g levels j (g.getD i 0) = false) :
    (applyTerrainStep g levels).getD i 0 = g.getD i 0 := by
  unfold applyTerrainStep
  rw [getD_map_of_lt _ g i hi]
  have hnone : (List.range levels).find?
      (fun j => bucketMatches g levels j (g.getD i 0)) = none := by
    rw [List.find?_eq_none]
    intro j hj
    rw [List.mem_range] at hj
    have hh := h j hj
    simp only [List.getD_eq_getElem?_getD] at hh
    simp [hh]
  rw [hnone]

/-- Witness for `step_unmatched_keeps`: on the grid `[1, 2, 3, 4, 5]` with
`levels = 2` the buckets are `[1, 2]` and `[3, 4]`; the leftover element
`5` matches neither, and cell 4 keeps its elevation `5`. -/
theorem step_unmatched_keeps_witness :
    4 < ([1, 2, 3, 4, 5] : Grid).length ∧
    (∀ j, j < 2 → bucketMatches [1, 2, 3, 4, 5] 2 j (([1, 2, 3, 4, 5] : Grid).getD 4 0) = false) ∧
    (applyTerrainStep [1, 2, 3, 4, 5] 2).getD 4 0 = ([1, 2, 3, 4, 5] : Grid).getD 4 0 := by
  refine ⟨by norm_num, ?_, ?_⟩
  · decide
  · exact step_unmatched_keeps [1, 2, 3, 4, 5] 2 4 (by norm_num) (by decide)

/-! ### Length invariance of every filter -/

theorem pushAt_length (g : Grid) (k : ℤ) (d : Bool) (peak mult : ℚ) :
    (pushAt g k d peak mult).length = g.length := by
  unfold pushAt
  by_cases hk : 0 ≤ k
  · rw [if_pos hk, List.length_set]
  · rw [if_neg hk]

theorem foldl_length_invariant {β : Type} (body : Grid → β → Grid)
    (hb : ∀ h e, (body h e).length = h.length) :
    ∀ (L : List β) (g : Grid), (L.foldl body g).length = g.length := by
  intro L
  induction L with
  | nil => intro g; rfl
  | cons e L ih =>
    intro g
    rw [List.foldl_cons, ih (body g e), hb g e]

theorem edgesRowBody_length (o : TerrainOptions) (d : Bool) (easing : ℚ → ℚ)
    (nY : ℤ) (edges : EdgeFlags) (h : Grid) (ij : ℕ × ℕ) :
    (edgesRowBody o d easing nY edges h ij).length = h.length := by
  unfold edgesRowBody
  by_cases h1 : edges.top <;> by_cases h2 : edges.bottom <;>
    simp [h1, h2, pushAt_length]

theorem edgesColBody_length (o : TerrainOptions) (d : Bool) (easing : ℚ → ℚ)
    (nX : ℤ) (edges : EdgeFlags) (h : Grid) (ij : ℕ × ℕ) :
    (edgesColBody o d easing nX edges h ij).length = h.length := by
  unfold edgesColBody
  by_cases h1 : edges.left <;> by_cases h2 : edges.right <;>
    simp [h1, h2, pushAt_length]

theorem radialBody_length (sqrtQ : ℚ → ℚ) (o : TerrainOptions) (d : Bool)
    (distance : ℚ) (easing : ℚ → ℚ) (h : Grid) (ij : ℕ × ℕ) :
    (radialBody sqrtQ o d distance easing h ij).length = h.length := by
  unfold radialBody
  by_cases hv : radialVertexDistance sqrtQ o distance ij.1 ij.2 < 0 <;>
    simp [hv, pushAt_length]

theorem edgesShape_length (g : Grid) (o : TerrainOptions) (d : Bool)
    (distance : ℚ) (easing : ℚ → ℚ) (edges : EdgeFlags) :
    (edgesShape g o d distance easing edges).length = g.length := by
  unfold edgesShape
  rw [foldl_length_invariant _ (edgesColBody_length o d easing _ edges),
    foldl_length_invariant _ (edgesRowBody_length o d easing _ edges)]

/-- C9. Every filter of the module preserves the grid length, for every
grid, options record and parameter values (the abstract `sqrtQ` stands for
`Math.sqrt` in `RadialEdges`). -/
theorem filters_length_invariant :
    ∀ (sqrtQ : ℚ → ℚ) (g : Grid) (o : TerrainOptions) (co : ClampOptions)
      (direction : Bool) (distance : ℚ) (easing : ℚ → ℚ) (edges : EdgeFlags)
      (weight mult : ℚ) (levels : ℕ),
      (applyTerrainClamp g co).length = g.length ∧
      (Edges g o direction distance easing edges).length = g.length ∧
      (RadialEdges sqrtQ g o direction distance easing).length = g.length ∧
      (applyTerrainSmooth g o weight).length = g.length ∧
      (SmoothMedian g o).length = g.length ∧
      (SmoothConservative g o mult).length = g.length ∧
      (applyTerrainStep g levels).length = g.length ∧
      (applyTurbulenceTurbulence g o).length = g.length := by
  intro sqrtQ g o co direction distance easing edges weight mult levels
  refine ⟨?_, ?_, ?_, ?_, ?_, ?_, ?_, ?_⟩
  · unfold applyTerrainClamp
    exact List.length_map g _
  · unfold Edges applyTerrainClamp
    rw [List.length_map]
    exact edgesShape_length g o direction distance easing edges
  · unfold RadialEdges
    exact foldl_length_invariant _ (radialBody_length sqrtQ o direction distance easing) _ g
  · unfold applyTerrainSmooth
    rw [List.length_map, List.length_range]
  · unfold SmoothMedian
    rw [List.length_map, List.length_range]
  · unfold SmoothConservative
    rw [List.length_map, List.length_range]
  · unfold applyTerrainStep
    exact List.length_map g _
  · unfold applyTurbulenceTurbulence
    exact List.length_map g _

/-! ### Edge shapers: the toward-the-peak push -/

theorem getD_set_cases (g : Grid) (n k : ℕ) (a : ℚ) :
    (g.set n a).getD k 0 = if n = k ∧ n < g.length then a else g.getD k 0 := by
  by_cases hnk : n = k
  · subst hnk
    by_cases hn : n < g.length
    · simp [List.getD_eq_getElem?_getD, List.getElem?_set_self, hn]
    · rw [List.set_eq_of_length_le (le_of_not_lt hn)]
      simp [hn]
  · rw [if_neg (fun hc => hnk hc.1)]
    simp [List.getD_eq_getElem?_getD, List.getElem?_set_ne hnk]

theorem getD_le_pushAt (g : Grid) (kp : ℤ) (peak mult : ℚ) (k : ℕ) :
    g.getD k 0 ≤ (pushAt g kp true peak mult).getD k 0 := by
  unfold pushAt
  by_cases hkp : 0 ≤ kp
  · rw [if_pos hkp, getD_set_cases]
    by_cases hc : kp.toNat = k ∧ kp.toNat < g.length
    · rw [if_pos hc]
      unfold pushVal
      rw [if_pos rfl, ← hc.1]
      exact le_max_left _ _
    · rw [if_neg hc]
  · rw [if_neg hkp]

theorem pushAt_le_getD (g : Grid) (kp : ℤ) (peak mult : ℚ) (k : ℕ) :
    (pushAt g kp false peak mult).getD k 0 ≤ g.getD k 0 := by
  unfold pushAt
  by_cases hkp : 0 ≤ kp
  · rw [if_pos hkp, getD_set_cases]
    by_cases hc : kp.toNat = k ∧ kp.toNat < g.length
    · rw [if_pos hc]
      unfold pushVal
      rw [if_neg (by simp), ← hc.1]
      exact min_le_left _ _
    · rw [if_neg hc]
  · rw [if_neg hkp]

theorem foldl_getD_mono {β : Type} (body : Grid → β → Grid)
    (hb : ∀ h e k, h.getD k 0 ≤ (body h e).getD k 0) :
    ∀ (L : List β) (g : Grid) (k : ℕ), g.getD k 0 ≤ (L.foldl body g).getD k 0 := by
  intro L
  induction L with
  | nil => intro g k; exact le_refl _
  | cons e L ih =>
    intro g k
    rw [List.foldl_cons]
    exact le_trans (hb g e k) (ih (body g e) k)

theorem foldl_getD_anti {β : Type} (body : Grid → β → Grid)
    (hb : ∀ h e k, (body h e).getD k 0 ≤ h.getD k 0) :
    ∀ (L : List β) (g : Grid) (k : ℕ), (L.foldl body g).getD k 0 ≤ g.getD k 0 := by
  intro L
  induction L with
  | nil => intro g k; exact le_refl _
  | cons e L ih =>
    intro g k
    rw [List.foldl_cons]
    exact le_trans (ih (body g e) k) (hb g e k)

theorem getD_le_ite_pushAt (b : Bool) (h : Grid) (kp : ℤ) (peak mult : ℚ) (k : ℕ) :
    h.getD k 0 ≤ (if b then pushAt h kp true peak mult else h).getD k 0 := by
  cases b
  · rw [if_neg (by decide)]
  · rw [if_pos rfl]
    exact getD_le_pushAt h kp peak mult k

theorem ite_pushAt_le_getD (b : Bool) (h : Grid) (kp : ℤ) (peak mult : ℚ) (k : ℕ) :
    (if b then pushAt h kp false peak mult else h).getD k 0 ≤ h.getD k 0 := by
  cases b
  · rw [if_neg (by decide)]
  · rw [if_pos rfl]
    exact pushAt_le_getD h kp peak mult k

theorem edgesRowBody_getD_mono (o : TerrainOptions) (easing : ℚ → ℚ) (nY : ℤ)
    (edges : EdgeFlags) (h : Grid) (ij : ℕ × ℕ) (k : ℕ) :
    h.getD k 0 ≤ (edgesRowBody o true easing nY edges h ij).getD k 0 := by
  exact le_trans (getD_le_ite_pushAt edges.top h _ _ _ k)
    (getD_le_ite_pushAt edges.bottom _ _ _ _ k)

theorem edgesRowBody_getD_anti (o : TerrainOptions) (easing : ℚ → ℚ) (nY : ℤ)
    (edges : EdgeFlags) (h : Grid) (ij : ℕ × ℕ) (k : ℕ) :
    (edgesRowBody o false easing nY edges h ij).getD k 0 ≤ h.getD k 0 := by
  exact le_trans (ite_pushAt_le_getD edges.bottom _ _ _ _ k)
    (ite_pushAt_le_getD edges.top h _ _ _ k)

theorem edgesColBody_getD_mono (o : TerrainOptions) (easing : ℚ → ℚ) (nX : ℤ)
    (edges : EdgeFlags) (h : Grid) (ij : ℕ × ℕ) (k : ℕ) :
    h.getD k 0 ≤ (edgesColBody o true easing nX edges h ij).getD k 0 := by
  exact le_trans (getD_le_ite_pushAt edges.left h _ _ _ k)
    (getD_le_ite_pushAt edges.right _ _ _ _ k)

theorem edgesColBody_getD_anti (o : TerrainOptions) (easing : ℚ → ℚ) (nX : ℤ)
    (edges : EdgeFlags) (h : Grid) (ij : ℕ × ℕ) (k : ℕ) :
    (edgesColBody o false easing nX edges h ij).getD k 0 ≤ h.getD k 0 := by
  exact le_trans (ite_pushAt_le_getD edges.right _ _ _ _ k)
    (ite_pushAt_le_getD edges.left h _ _ _ k)

theorem radialBody_getD_mono (sqrtQ : ℚ → ℚ) (o : TerrainOptions) (distance : ℚ)
    (easing : ℚ → ℚ) (h : Grid) (ij : ℕ × ℕ) (k : ℕ) :
    h.getD k 0 ≤ (radialBody sqrtQ o true distance easing h ij).getD k 0 := by
  unfold radialBody
  by_cases hv : radialVertexDistance sqrtQ o distance ij.1 ij.2 < 0
  · rw [if_pos hv]
  · rw [if_neg hv]
    exact le_trans (getD_le_pushAt _ _ _ _ k) (getD_le_pushAt _ _ _ _ k)

theorem radialBody_getD_anti (sqrtQ : ℚ → ℚ) (o : TerrainOptions) (distance : ℚ)
    (easing : ℚ → ℚ) (h : Grid) (ij : ℕ × ℕ) (k : ℕ) :
    (radialBody sqrtQ o false distance easing h ij).getD k 0 ≤ h.getD k 0 := by
  unfold radialBody
  by_cases hv : radialVertexDistance sqrtQ o distance ij.1 ij.2 < 0
  · rw [if_pos hv]
  · rw [if_neg hv]
    exact le_trans (pushAt_le_getD _ _ _ _ k) (pushAt_le_getD _ _ _ _ k)

/-- C2 (amended): the monotone-push property holds for `RadialEdges` as the
claim states it, and for the two shaping passes of `Edges` (`edgesShape`,
everything `Edges` does before its final internal renormalization): with
`direction = true` every cell is `≥` its previous value, with
`direction = false` every cell is `≤` it, for arbitrary easing. The final
`applyTerrainClamp` call inside `Edges` rescales the whole grid and can
move cells in either direction, which is where the claim as written fails
(see the counterexample). -/
theorem edge_shapers_monotone_push :
    ∀ (sqrtQ : ℚ → ℚ) (g : Grid) (o : TerrainOptions) (direction : Bool)
      (distance : ℚ) (easing : ℚ → ℚ) (edges : EdgeFlags) (k : ℕ),
      if direction then
        g.getD k 0 ≤ (edgesShape g o direction distance easing edges).getD k 0 ∧
        g.getD k 0 ≤ (RadialEdges sqrtQ g o direction distance easing).getD k 0
      else
        (edgesShape g o direction distance easing edges).getD k 0 ≤ g.getD k 0 ∧
        (RadialEdges sqrtQ g o direction distance easing).getD k 0 ≤ g.getD k 0 := by
  intro sqrtQ g o direction distance easing edges k
  cases direction with
  | true =>
    rw [if_pos rfl]
    constructor
    · unfold edgesShape
      exact le_trans
        (foldl_getD_mono _
          (edgesRowBody_getD_mono o easing (segCount distance (o.height / (o.heightSegments : ℚ))) edges)
          (pairList (o.widthSegments + 1) (segCount distance (o.height / (o.heightSegments : ℚ))).toNat) g k)
        (foldl_getD_mono _
          (edgesColBody_getD_mono o easing (segCount distance (o.width / (o.widthSegments : ℚ))) edges)
          (pairList (o.heightSegments + 1) (segCount distance (o.width / (o.widthSegments : ℚ))).toNat) _ k)
    · unfold RadialEdges
      exact foldl_getD_mono _ (radialBody_getD_mono sqrtQ o distance easing)
        (pairList (o.widthSegments + 1) (radialHalfCount (o.heightSegments + 1))) g k
  | false =>
    rw [if_neg (by simp)]
    constructor
    · unfold edgesShape
      exact le_trans
        (foldl_getD_anti _
          (edgesColBody_getD_anti o easing (segCount distance (o.width / (o.widthSegments : ℚ))) edges)
          (pairList (o.heightSegments + 1) (segCount distance (o.width / (o.widthSegments : ℚ))).toNat) _ k)
        (foldl_getD_anti _
          (edgesRowBody_getD_anti o easing (segCount distance (o.height / (o.heightSegments : ℚ))) edges)
          (pairList (o.widthSegments + 1) (segCount distance (o.height / (o.heightSegments : ℚ))).toNat) g k)
    · unfold RadialEdges
      exact foldl_getD_anti _ (radialBody_getD_anti sqrtQ o distance easing)
        (pairList (o.widthSegments + 1) (radialHalfCount (o.heightSegments + 1))) g k

/-- C2 counterexample: `Edges` ends by renormalizing the whole grid, which
can lower an affected cell below its pre-call value even with
`direction = true`. On the 2×1-vertex grid `[0, 100]` (widthSegments 1,
heightSegments 0, width = height = 1, maxHeight 10, minHeight 0) with
`direction = true`, `distance = 1/2` and identity easing, every cell is in
the affected band; the pushes give `[10, 100]`, and the final internal
renormalization maps cell 1 from `100` to `10 < 100`. -/
theorem edges_monotone_counterexample :
    (Edges [0, 100] ⟨1, 1, 1, 0, 10, 0⟩ true (1 / 2) Linear ⟨true, true, true, true⟩).getD 1 0
      < ([0, 100] : Grid).getD 1 0 := by
  with_unfolding_all decide

/-! ### Step Quantizer: the population bound -/

theorem sortedHeights_sorted (g : Grid) : List.Sorted (· ≤ ·) (sortedHeights g) :=
  List.sorted_insertionSort _ g

theorem sortedHeights_perm (g : Grid) : List.Perm (sortedHeights g) g :=
  List.perm_insertionSort _ g

theorem sortedHeights_length (g : Grid) : (sortedHeights g).length = g.length :=
  (sortedHeights_perm g).length_eq

theorem sorted_get_le_get (l : List ℚ) (hs : List.Sorted (· ≤ ·) l)
    (a b : ℕ) (hab : a ≤ b) (hb : b < l.length) :
    l.get ⟨a, lt_of_le_of_lt hab hb⟩ ≤ l.get ⟨b, hb⟩ :=
  hs.rel_get_of_le (Fin.mk_le_mk.mpr hab)

theorem bucketSlice_head (g : Grid) (levels j : ℕ)
    (hinc : 0 < stepInc g.length levels) :
    (bucketSlice g levels j).head?
      = (sortedHeights g)[j * stepInc g.length levels]? := by
  unfold bucketSlice
  rw [List.head?_eq_getElem?, List.getElem?_take, if_pos hinc, List.getElem?_drop]
  norm_num

theorem bucketSlice_getLast (g : Grid) (levels j : ℕ)
    (hinc : 0 < stepInc g.length levels)
    (hlen : j * stepInc g.length levels + stepInc g.length levels
      ≤ (sortedHeights g).length) :
    (bucketSlice g levels j).getLast?
      = (sortedHeights g)[j * stepInc g.length levels + (stepInc g.length levels - 1)]? := by
  unfold bucketSlice
  rw [List.getLast?_eq_getElem?]
  have hlength : (((sortedHeights g).drop (j * stepInc g.length levels)).take
      (stepInc g.length levels)).length = stepInc g.length levels := by
    rw [List.length_take, List.length_drop]
    omega
  rw [hlength, List.getElem?_take, if_pos (by omega), List.getElem?_drop]

theorem step_matched (g : Grid) (levels : ℕ) (hpos : 0 < levels)
    (hdvd : levels ∣ g.length) (z : ℚ) (hz : z ∈ g) :
    ∃ j, j < levels ∧ bucketMatches g levels j z = true := by
  have hzs : z ∈ sortedHeights g := ((sortedHeights_perm g).mem_iff).mpr hz
  obtain ⟨⟨p, hp⟩, hpz⟩ := List.mem_iff_get.mp hzs
  have hmul : levels * stepInc g.length levels = g.length := Nat.mul_div_cancel' hdvd
  have hlen0 : 0 < g.length := List.length_pos.mpr (List.ne_nil_of_mem hz)
  have hinc : 0 < stepInc g.length levels := by
    rcases Nat.eq_zero_or_pos (stepInc g.length levels) with h0 | h
    · rw [h0, Nat.mul_zero] at hmul
      omega
    · exact h
  have hslen : (sortedHeights g).length = g.length := sortedHeights_length g
  have hplen : p < g.length := by rw [← hslen]; exact hp
  have hj : p / stepInc g.length levels < levels :=
    (Nat.div_lt_iff_lt_mul hinc).mpr (by rw [hmul]; exact hplen)
  refine ⟨p / stepInc g.length levels, hj, ?_⟩
  have hle1 : p / stepInc g.length levels * stepInc g.length levels ≤ p :=
    Nat.div_mul_le_self p _
  have hdm := Nat.div_add_mod p (stepInc g.length levels)
  have hmod := Nat.mod_lt p hinc
  have hlt2 : p < p / stepInc g.length levels * stepInc g.length levels
      + stepInc g.length levels := by
    rw [Nat.mul_comm] at hdm
    omega
  have hslice_le : p / stepInc g.length levels * stepInc g.length levels
      + stepInc g.length levels ≤ (sortedHeights g).length := by
    have hstep : (p / stepInc g.length levels + 1) * stepInc g.length levels
        ≤ levels * stepInc g.length levels :=
      Nat.mul_le_mul_right _ (by omega)
    rw [hslen]
    calc p / stepInc g.length levels * stepInc g.length levels + stepInc g.length levels
        = (p / stepInc g.length levels + 1) * stepInc g.length levels := by ring
      _ ≤ levels * stepInc g.length levels := hstep
      _ = g.length := hmul
  have hidx1 : p / stepInc g.length levels * stepInc g.length levels
      < (sortedHeights g).length := by omega
  have hidx2 : p / stepInc g.length levels * stepInc g.length levels
      + (stepInc g.length levels - 1) < (sortedHeights g).length := by omega
  have hhead := bucketSlice_head g levels (p / stepInc g.length levels) hinc
  have hlast := bucketSlice_getLast g levels (p / stepInc g.length levels) hinc hslice_le
  rw [List.getElem?_eq_getElem hidx1] at hhead
  rw [List.getElem?_eq_getElem hidx2] at hlast
  unfold bucketMatches
  rw [hhead, hlast]
  rw [decide_eq_true_eq]
  constructor
  · rw [← hpz]
    have := sorted_get_le_get (sortedHeights g) (sortedHeights_sorted g)
      (p / stepInc g.length levels * stepInc g.length levels) p hle1 hp
    simpa using this
  · rw [← hpz]
    have := sorted_get_le_get (sortedHeights g) (sortedHeights_sorted g)
      p (p / stepInc g.length levels * stepInc g.length levels
        + (stepInc g.length levels - 1)) (by omega) hidx2
    simpa using this

/-- C3 (amended): when `levels = k > 0` divides the grid length — so the
sorted population splits into `k` full buckets with no dropped leftover —
every cell matches some bucket and the number of distinct output elevations
is at most `k`. (With a leftover, unmatched cells retain their original
elevations, which can push the distinct count above `k`; see the
counterexample.) -/
theorem step_distinct_bound (g : Grid) (levels : ℕ) (hpos : 0 < levels)
    (hdvd : levels ∣ g.length) :
    (applyTerrainStep g levels).toFinset.card ≤ levels := by
  have hsub : (applyTerrainStep g levels).toFinset
      ⊆ ((List.range levels).map (bucketAvg g levels)).toFinset := by
    intro w hw
    rw [List.mem_toFinset] at hw ⊢
    unfold applyTerrainStep at hw
    rcases List.mem_map.mp hw with ⟨z, hzg, hzw⟩
    obtain ⟨j, hj, hmatch⟩ := step_matched g levels hpos hdvd z hzg
    have hsome : ((List.range levels).find? (fun i => bucketMatches g levels i z)).isSome := by
      rw [List.find?_isSome]
      exact ⟨j, List.mem_range.mpr hj, hmatch⟩
    obtain ⟨j0, hj0⟩ := Option.isSome_iff_exists.mp hsome
    rw [hj0] at hzw
    rw [← hzw]
    exact List.mem_map.mpr ⟨j0, List.mem_of_find?_eq_some hj0, rfl⟩
  calc (applyTerrainStep g levels).toFinset.card
      ≤ ((List.range levels).map (bucketAvg g levels)).toFinset.card :=
        Finset.card_le_card hsub
    _ ≤ ((List.range levels).map (bucketAvg g levels)).length := List.toFinset_card_le _
    _ = levels := by rw [List.length_map, List.length_range]

/-- Witness for `step_distinct_bound`: grid `[1, 2, 3, 4]`, `levels = 2`. -/
theorem step_distinct_bound_witness :
    0 < 2 ∧ 2 ∣ ([1, 2, 3, 4] : Grid).length ∧
    (applyTerrainStep [1, 2, 3, 4] 2).toFinset.card ≤ 2 :=
  ⟨by decide, by decide, step_distinct_bound [1, 2, 3, 4] 2 (by decide) (by decide)⟩

/-- C3 counterexample: on the grid `[1, 2, 3, 4, 5]` with `levels = 2` the
two buckets hold `[1, 2]` and `[3, 4]`; the leftover element `5` matches no
bucket and keeps its value, so the output `[3/2, 3/2, 7/2, 7/2, 5]` has 3
distinct elevations, exceeding `levels = 2`. -/
theorem step_distinct_counterexample :
    ¬ ((applyTerrainStep [1, 2, 3, 4, 5] 2).toFinset.card ≤ 2) := by
  with_unfolding_all decide

/-! ### SmoothConservative: the diagonal clamp window -/

theorem getD_range_map (f : ℕ → ℚ) (n k : ℕ) (hk : k < n) :
    ((List.range n).map f).getD k 0 = f k := by
  simp [List.getD_eq_getElem?_getD, List.getElem?_map, List.getElem?_range, hk]

/-- C7. `SmoothConservative` commits, for each cell, the original elevation
clamped into the window `[middle - halfdiff * multiplier, middle + halfdiff * multiplier]`
where `halfdiff`/`middle` come from the min and max over the in-bounds
diagonal neighbors only, all read from the pre-pass grid; an empty diagonal
neighborhood leaves the cell unchanged, and `multiplier = 1` reproduces the
raw diagonal `[min, max]` window. The min/max are characterized
extensionally (any member of the neighbor list that bounds the whole list),
and the clamp as `max lo (min z hi)`, so the statement is independent of
the source's fold-with-sentinels formulation. -/
theorem smoothConservative_spec (g : Grid) (o : TerrainOptions) (mult : ℚ) (k : ℕ)
    (hk : k < g.length)
    (hlen : g.length = (o.widthSegments + 1) * (o.heightSegments + 1)) :
    (diagNeighborVals g (o.widthSegments + 1) (o.heightSegments + 1)
        (k % (o.widthSegments + 1)) (k / (o.widthSegments + 1)) = [] →
      (SmoothConservative g o mult).getD k 0 = g.getD k 0) ∧
    (∀ mn mx : ℚ,
      mn ∈ diagNeighborVals g (o.widthSegments + 1) (o.heightSegments + 1)
        (k % (o.widthSegments + 1)) (k / (o.widthSegments + 1)) →
      mx ∈ diagNeighborVals g (o.widthSegments + 1) (o.heightSegments + 1)
        (k % (o.widthSegments + 1)) (k / (o.widthSegments + 1)) →
      (∀ v ∈ diagNeighborVals g (o.widthSegments + 1) (o.heightSegments + 1)
        (k % (o.widthSegments + 1)) (k / (o.widthSegments + 1)), mn ≤ v ∧ v ≤ mx) →
      0 ≤ mult →
      (SmoothConservative g o mult).getD k 0
        = max (mn + (mx - mn) * (1 / 2) - (mx - mn) * (1 / 2) * mult)
            (min (g.getD k 0) (mn + (mx - mn) * (1 / 2) + (mx - mn) * (1 / 2) * mult))) ∧
    (∀ mn mx : ℚ,
      mn ∈ diagNeighborVals g (o.widthSegments + 1) (o.heightSegments + 1)
        (k % (o.widthSegments + 1)) (k / (o.widthSegments + 1)) →
      mx ∈ diagNeighborVals g (o.widthSegments + 1) (o.heightSegments + 1)
        (k % (o.widthSegments + 1)) (k / (o.widthSegments + 1)) →
      (∀ v ∈ diagNeighborVals g (o.widthSegments + 1) (o.heightSegments + 1)
        (k % (o.widthSegments + 1)) (k / (o.widthSegments + 1)), mn ≤ v ∧ v ≤ mx) →
      mult = 1 →
      (SmoothConservative g o mult).getD k 0
        = max mn (min (g.getD k 0) mx)) := by
  have hdivlt : k / (o.widthSegments + 1) < o.heightSegments + 1 := by
    rw [Nat.div_lt_iff_lt_mul (Nat.succ_pos o.widthSegments)]
    have hk2 : k < (o.widthSegments + 1) * (o.heightSegments + 1) := hlen ▸ hk
    rw [Nat.mul_comm] at hk2
    exact hk2
  have hout : (SmoothConservative g o mult).getD k 0
      = conservativeVal g (o.widthSegments + 1) (o.heightSegments + 1) mult
          (k % (o.widthSegments + 1)) (k / (o.widthSegments + 1)) (g.getD k 0) := by
    unfold SmoothConservative
    rw [getD_range_map _ _ _ hk, if_pos hdivlt]
  have hmain : ∀ mn mx : ℚ,
      mn ∈ diagNeighborVals g (o.widthSegments + 1) (o.heightSegments + 1)
        (k % (o.widthSegments + 1)) (k / (o.widthSegments + 1)) →
      mx ∈ diagNeighborVals g (o.widthSegments + 1) (o.heightSegments + 1)
        (k % (o.widthSegments + 1)) (k / (o.widthSegments + 1)) →
      (∀ v ∈ diagNeighborVals g (o.widthSegments + 1) (o.heightSegments + 1)
        (k % (o.widthSegments + 1)) (k / (o.widthSegments + 1)), mn ≤ v ∧ v ≤ mx) →
      0 ≤ mult →
      (SmoothConservative g o mult).getD k 0
        = max (mn + (mx - mn) * (1 / 2) - (mx - mn) * (1 / 2) * mult)
            (min (g.getD k 0) (mn + (mx - mn) * (1 / 2) + (mx - mn) * (1 / 2) * mult)) := by
    intro mn mx hmn hmx hbounds hmult
    rw [hout]
    cases hveq : diagNeighborVals g (o.widthSegments + 1) (o.heightSegments + 1)
        (k % (o.widthSegments + 1)) (k / (o.widthSegments + 1)) with
    | nil =>
      rw [hveq] at hmn
      cases hmn
    | cons v vs =>
      rw [hveq] at hmn hmx hbounds
      have hmnf : vs.foldl (fun a b => if b < a then b else a) v = mn := by
        apply le_antisymm
        · exact clampMin_le (v :: vs) mn hmn
        · exact (hbounds _ (foldlMin_mem vs v)).1
      have hmxf : vs.foldl (fun a b => if b > a then b else a) v = mx := by
        apply le_antisymm
        · exact (hbounds _ (foldlMax_mem vs v)).2
        · exact le_clampMax (v :: vs) mx hmx
      have hmnmx : mn ≤ mx := (hbounds mx hmx).1
      have hwin : mn + (mx - mn) * (1 / 2) - (mx - mn) * (1 / 2) * mult
          ≤ mn + (mx - mn) * (1 / 2) + (mx - mn) * (1 / 2) * mult := by
        nlinarith
      unfold conservativeVal
      rw [hveq]
      simp only [hmnf, hmxf]
      by_cases hz1 : g.getD k 0 > mn + (mx - mn) * (1 / 2) + (mx - mn) * (1 / 2) * mult
      · rw [if_pos hz1, min_eq_right (le_of_lt hz1), max_eq_right hwin]
      · rw [if_neg hz1]
        by_cases hz2 : g.getD k 0 < mn + (mx - mn) * (1 / 2) - (mx - mn) * (1 / 2) * mult
        · rw [if_pos hz2, min_eq_left (le_of_not_lt hz1),
            max_eq_left (le_of_lt hz2)]
        · rw [if_neg hz2, min_eq_left (le_of_not_lt hz1),
            max_eq_right (le_of_not_lt hz2)]
  refine ⟨?_, hmain, ?_⟩
  · intro hveq
    rw [hout]
    unfold conservativeVal
    rw [hveq]
  · intro mn mx hmn hmx hbounds hm1
    rw [hmain mn mx hmn hmx hbounds (by rw [hm1]; norm_num)]
    rw [hm1]
    rw [show mn + (mx - mn) * (1 / 2) - (mx - mn) * (1 / 2) * 1 = mn by ring,
      show mn + (mx - mn) * (1 / 2) + (mx - mn) * (1 / 2) * 1 = mx by ring]

/-- Witness for `smoothConservative_spec` on the 2×2 grid `[1, 2, 3, 4]`
(widthSegments = heightSegments = 1), `multiplier = 1`, cell 0, whose only
in-bounds diagonal neighbor is cell 3 with elevation 4: the cell is clamped
to `max 4 (min 1 4) = 4`. -/
theorem smoothConservative_spec_witness :
    0 < ([1, 2, 3, 4] : Grid).length ∧
    ([1, 2, 3, 4] : Grid).length = (1 + 1) * (1 + 1) ∧
    (4 : ℚ) ∈ diagNeighborVals [1, 2, 3, 4] 2 2 0 0 ∧
    (SmoothConservative [1, 2, 3, 4] ⟨1, 1, 1, 1, 0, 0⟩ 1).getD 0 0
      = max 4 (min (([1, 2, 3, 4] : Grid).getD 0 0) 4) := by
  refine ⟨by decide, by decide, by with_unfolding_all decide, ?_⟩
  exact (smoothConservative_spec [1, 2, 3, 4] ⟨1, 1, 1, 1, 0, 0⟩ 1 0 (by decide)
      (by decide)).2.2 4 4
    (by with_unfolding_all decide) (by with_unfolding_all decide)
    (by with_unfolding_all decide) rfl

/-! ### RadialEdges: the half-grid symmetry and the center row -/

theorem mem_pairList (a b : ℕ) (p : ℕ × ℕ) :
    p ∈ pairList a b ↔ p.1 < a ∧ p.2 < b := by
  unfold pairList
  simp only [List.mem_flatMap, List.mem_map, List.mem_range]
  constructor
  · rintro ⟨i, hi, j, hj, rfl⟩
    exact ⟨hi, hj⟩
  · intro h
    exact ⟨p.1, h.1, p.2, h.2, rfl⟩

theorem pairList_nodup (a b : ℕ) : (pairList a b).Nodup := by
  unfold pairList
  apply List.nodup_flatMap.mpr
  constructor
  · intro i hi
    exact (List.nodup_range b).map (fun x y hxy => by simpa using hxy)
  · apply List.Pairwise.imp ?_ (List.nodup_range a)
    intro i j hij
    intro p hpi hpj
    simp only [List.mem_map, List.mem_range] at hpi hpj
    obtain ⟨x, hx, rfl⟩ := hpi
    obtain ⟨y, hy, hyp⟩ := hpj
    exact hij (congrArg Prod.fst hyp).symm

theorem pushAt_getD_untouched (g : Grid) (kp : ℤ) (d : Bool) (peak mult : ℚ)
    (K : ℕ) (hne : ¬(0 ≤ kp ∧ kp.toNat = K)) :
    (pushAt g kp d peak mult).getD K 0 = g.getD K 0 := by
  unfold pushAt
  by_cases h0 : 0 ≤ kp
  · rw [if_pos h0, getD_set_cases, if_neg (fun hc => hne ⟨h0, hc.1⟩)]
  · rw [if_neg h0]

theorem pushAt_getD_self (g : Grid) (K : ℕ) (hK : K < g.length) (d : Bool)
    (peak mult : ℚ) :
    (pushAt g (K : ℤ) d peak mult).getD K 0 = pushVal d peak mult (g.getD K 0) := by
  unfold pushAt
  rw [if_pos (Int.natCast_nonneg K), Int.toNat_natCast, getD_set_cases, if_pos ⟨rfl, hK⟩]

theorem rowcol_index_inj (xl i j c r : ℕ) (hi : i < xl) (hc : c < xl)
    (heq : j * xl + i = r * xl + c) : j = r ∧ i = c := by
  have hxl : 0 < xl := by omega
  have h1 : (j * xl + i) / xl = j := by
    rw [Nat.mul_comm j xl, Nat.mul_add_div hxl, Nat.div_eq_of_lt hi, Nat.add_zero]
  have h2 : (r * xl + c) / xl = r := by
    rw [Nat.mul_comm r xl, Nat.mul_add_div hxl, Nat.div_eq_of_lt hc, Nat.add_zero]
  have hj : j = r := by rw [← h1, ← h2, heq]
  subst hj
  exact ⟨rfl, by omega⟩

theorem foldl_getD_untouched {β : Type} (body : Grid → β → Grid) (K : ℕ) :
    ∀ (L : List β) (g : Grid),
      (∀ p ∈ L, ∀ h : Grid, (body h p).getD K 0 = h.getD K 0) →
      (L.foldl body g).getD K 0 = g.getD K 0 := by
  intro L
  induction L with
  | nil => intro g _; rfl
  | cons p L ih =>
    intro g hno
    rw [List.foldl_cons, ih (body g p) (fun q hq => hno q (List.mem_cons_of_mem p hq)),
      hno p (List.mem_cons_self p L) g]

theorem foldl_getD_single {β : Type} [DecidableEq β] (body : Grid → β → Grid)
    (K : ℕ) (e0 : β) (F : ℚ → ℚ) (n : ℕ)
    (hlenpres : ∀ (h : Grid) (p : β), (body h p).length = h.length)
    (he : ∀ h : Grid, h.length = n → (body h e0).getD K 0 = F (h.getD K 0)) :
    ∀ (L : List β), L.count e0 = 1 →
      (∀ p ∈ L, p ≠ e0 → ∀ h : Grid, (body h p).getD K 0 = h.getD K 0) →
      ∀ g : Grid, g.length = n →
      (L.foldl body g).getD K 0 = F (g.getD K 0) := by
  intro L
  induction L with
  | nil => intro hcount; simp at hcount
  | cons p L ih =>
    intro hcount hno g hg
    rw [List.foldl_cons]
    by_cases hp : p = e0
    · subst hp
      have hzero : L.count p = 0 := by
        rw [List.count_cons_self] at hcount
        omega
      have hnotmem : p ∉ L := List.count_eq_zero.mp hzero
      rw [foldl_getD_untouched body K L (body g p)
        (fun q hq h => hno q (List.mem_cons_of_mem p hq)
          (fun hqe => hnotmem (hqe ▸ hq)) h)]
      exact he g hg
    · have hcount2 : L.count e0 = 1 := by
        rw [List.count_cons_of_ne (fun hc => hp hc.symm)] at hcount
        exact hcount
      rw [ih hcount2 (fun q hq => hno q (List.mem_cons_of_mem p hq)) (body g p)
        (by rw [hlenpres g p, hg]), hno p (List.mem_cons_self p L) hp g]

theorem pushVal_step_closer (d : Bool) (peak mult w : ℚ) (h0 : 0 ≤ mult)
    (h1 : mult ≤ 1) :
    |peak - pushVal d peak mult w| ≤ |peak - w| := by
  cases d with
  | true =>
    unfold pushVal
    rw [if_pos rfl]
    by_cases hw : w ≤ peak
    · have hstep : w ≤ (peak - w) * mult + w := by nlinarith
      rw [max_eq_right hstep]
      have hle : (peak - w) * mult + w ≤ peak := by nlinarith
      rw [abs_of_nonneg (by linarith), abs_of_nonneg (by linarith)]
      nlinarith
    · have hstep : (peak - w) * mult + w ≤ w := by nlinarith [lt_of_not_le hw]
      rw [max_eq_left hstep]
  | false =>
    unfold pushVal
    rw [if_neg (by simp)]
    by_cases hw : peak ≤ w
    · have hstep : (peak - w) * mult + w ≤ w := by nlinarith
      rw [min_eq_right hstep]
      have hge : peak ≤ (peak - w) * mult + w := by nlinarith
      rw [abs_of_nonpos (by linarith), abs_of_nonpos (by linarith)]
      nlinarith
    · have hstep : w ≤ (peak - w) * mult + w := by nlinarith [lt_of_not_le hw]
      rw [min_eq_left hstep]

theorem radialBody_getD_other (sqrtQ : ℚ → ℚ) (o : TerrainOptions) (direction : Bool)
    (distance : ℚ) (easing : ℚ → ℚ) (c : ℕ) (hc : c < o.widthSegments + 1)
    (heven : o.heightSegments % 2 = 0) (p : ℕ × ℕ)
    (hp1 : p.1 < o.widthSegments + 1)
    (hp2 : p.2 < radialHalfCount (o.heightSegments + 1))
    (hne : p ≠ (c, o.heightSegments / 2)) (h : Grid) :
    (radialBody sqrtQ o direction distance easing h p).getD
        (o.heightSegments / 2 * (o.widthSegments + 1) + c) 0
      = h.getD (o.heightSegments / 2 * (o.widthSegments + 1) + c) 0 := by
  have hple : p.2 ≤ o.heightSegments := by
    unfold radialHalfCount at hp2
    omega
  have hne1 : ¬(0 ≤ (p.2 : ℤ) * ((o.widthSegments : ℤ) + 1) + (p.1 : ℤ) ∧
      ((p.2 : ℤ) * ((o.widthSegments : ℤ) + 1) + (p.1 : ℤ)).toNat
        = o.heightSegments / 2 * (o.widthSegments + 1) + c) := by
    rintro ⟨h0, htn⟩
    have hcast : ((p.2 * (o.widthSegments + 1) + p.1 : ℕ) : ℤ)
        = (p.2 : ℤ) * ((o.widthSegments : ℤ) + 1) + (p.1 : ℤ) := by
      push_cast
      ring
    rw [← hcast, Int.toNat_natCast] at htn
    obtain ⟨hj, hi⟩ := rowcol_index_inj (o.widthSegments + 1) p.1 p.2 c
      (o.heightSegments / 2) hp1 hc htn
    exact hne (Prod.ext_iff.mpr ⟨hi, hj⟩)
  have hne2 : ¬(0 ≤ ((o.heightSegments : ℤ) - (p.2 : ℤ)) * ((o.widthSegments : ℤ) + 1)
        + (p.1 : ℤ) ∧
      (((o.heightSegments : ℤ) - (p.2 : ℤ)) * ((o.widthSegments : ℤ) + 1)
        + (p.1 : ℤ)).toNat = o.heightSegments / 2 * (o.widthSegments + 1) + c) := by
    rintro ⟨h0, htn⟩
    have hcast : (((o.heightSegments - p.2) * (o.widthSegments + 1) + p.1 : ℕ) : ℤ)
        = ((o.heightSegments : ℤ) - (p.2 : ℤ)) * ((o.widthSegments : ℤ) + 1) + (p.1 : ℤ) := by
      push_cast [Nat.cast_sub hple]
      ring
    rw [← hcast, Int.toNat_natCast] at htn
    obtain ⟨hj, hi⟩ := rowcol_index_inj (o.widthSegments + 1) p.1
      (o.heightSegments - p.2) c (o.heightSegments / 2) hp1 hc htn
    have hp2r : p.2 = o.heightSegments / 2 := by omega
    exact hne (Prod.ext_iff.mpr ⟨hi, hp2r⟩)
  simp only [radialBody]
  by_cases hv : radialVertexDistance sqrtQ o distance p.1 p.2 < 0
  · rw [if_pos hv]
  · rw [if_neg hv]
    exact (pushAt_getD_untouched _ _ _ _ _ _ hne2).trans
      (pushAt_getD_untouched _ _ _ _ _ _ hne1)

theorem radialBody_getD_center (sqrtQ : ℚ → ℚ) (o : TerrainOptions) (direction : Bool)
    (distance : ℚ) (easing : ℚ → ℚ) (c : ℕ) (hc : c < o.widthSegments + 1)
    (heven : o.heightSegments % 2 = 0)
    (hskip : ¬(radialVertexDistance sqrtQ o distance c (o.heightSegments / 2) < 0))
    (h : Grid) (hlen : h.length = (o.widthSegments + 1) * (o.heightSegments + 1)) :
    (radialBody sqrtQ o direction distance easing h (c, o.heightSegments / 2)).getD
        (o.heightSegments / 2 * (o.widthSegments + 1) + c) 0
      = pushVal direction (if direction then o.maxHeight else o.minHeight)
          (easing (radialVertexDistance sqrtQ o distance c (o.heightSegments / 2)
            / edgeRadius o distance))
          (pushVal direction (if direction then o.maxHeight else o.minHeight)
            (easing (radialVertexDistance sqrtQ o distance c (o.heightSegments / 2)
              / edgeRadius o distance))
            (h.getD (o.heightSegments / 2 * (o.widthSegments + 1) + c) 0)) := by
  have hK : o.heightSegments / 2 * (o.widthSegments + 1) + c < h.length := by
    have hexp : (o.heightSegments / 2 + 1) * (o.widthSegments + 1)
        = o.heightSegments / 2 * (o.widthSegments + 1) + (o.widthSegments + 1) := by
      ring
    have h2 : (o.heightSegments / 2 + 1) * (o.widthSegments + 1)
        ≤ (o.heightSegments + 1) * (o.widthSegments + 1) :=
      Nat.mul_le_mul_right _ (by omega)
    rw [hlen, Nat.mul_comm (o.widthSegments + 1) (o.heightSegments + 1)]
    omega
  have e1 : ((o.heightSegments / 2 : ℕ) : ℤ) * ((o.widthSegments : ℤ) + 1) + (c : ℤ)
      = ((o.heightSegments / 2 * (o.widthSegments + 1) + c : ℕ) : ℤ) := by
    push_cast
    ring
  have e2 : ((o.heightSegments : ℤ) - ((o.heightSegments / 2 : ℕ) : ℤ))
        * ((o.widthSegments : ℤ) + 1) + (c : ℤ)
      = ((o.heightSegments / 2 * (o.widthSegments + 1) + c : ℕ) : ℤ) := by
    have hsplit : (o.heightSegments : ℤ) = 2 * ((o.heightSegments / 2 : ℕ) : ℤ) := by
      have hn : o.heightSegments = 2 * (o.heightSegments / 2) := by omega
      exact_mod_cast congrArg (Nat.cast : ℕ → ℤ) hn
    rw [hsplit]
    push_cast
    ring
  simp only [radialBody]
  rw [if_neg hskip, e1, e2]
  rw [pushAt_getD_self _ _ (by rw [pushAt_length]; exact hK) direction _ _,
    pushAt_getD_self h _ hK direction _ _]

theorem radialVertexDistance_le (sqrtQ : ℚ → ℚ) (o : TerrainOptions) (distance : ℚ)
    (i j : ℕ) :
    radialVertexDistance sqrtQ o distance i j ≤ edgeRadius o distance := by
  unfold radialVertexDistance
  exact min_le_left _ _

/-- C10. For an even `heightSegments`, the half-grid loop bound
`j < yl * 0.5` of `RadialEdges` includes the center row
`j = heightSegments / 2`, whose mirror row `heightSegments - j` is itself:
every non-skipped cell `(c, heightSegments / 2)` is pushed toward the peak
twice in the same iteration, the second update starting from the first
update's result with the same multiplier, and the doubly pushed value is at
least as close to the peak as a single push would leave it (easing mapping
`[0, 1]` into `[0, 1]` and a positive `edgeRadius`). -/
theorem radialEdges_center_row_double (sqrtQ : ℚ → ℚ) (g : Grid) (o : TerrainOptions)
    (direction : Bool) (distance : ℚ) (easing : ℚ → ℚ) (c : ℕ)
    (hc : c < o.widthSegments + 1)
    (heven : o.heightSegments % 2 = 0)
    (hlen : g.length = (o.widthSegments + 1) * (o.heightSegments + 1))
    (hskip : 0 ≤ radialVertexDistance sqrtQ o distance c (o.heightSegments / 2))
    (heas : ∀ t : ℚ, 0 ≤ t → t ≤ 1 → 0 ≤ easing t ∧ easing t ≤ 1)
    (hrad : 0 < edgeRadius o distance) :
    (RadialEdges sqrtQ g o direction distance easing).getD
        (o.heightSegments / 2 * (o.widthSegments + 1) + c) 0
      = pushVal direction (if direction then o.maxHeight else o.minHeight)
          (easing (radialVertexDistance sqrtQ o distance c (o.heightSegments / 2)
            / edgeRadius o distance))
          (pushVal direction (if direction then o.maxHeight else o.minHeight)
            (easing (radialVertexDistance sqrtQ o distance c (o.heightSegments / 2)
              / edgeRadius o distance))
            (g.getD (o.heightSegments / 2 * (o.widthSegments + 1) + c) 0)) ∧
    |(if direction then o.maxHeight else o.minHeight)
        - (RadialEdges sqrtQ g o direction distance easing).getD
            (o.heightSegments / 2 * (o.widthSegments + 1) + c) 0|
      ≤ |(if direction then o.maxHeight else o.minHeight)
          - pushVal direction (if direction then o.maxHeight else o.minHeight)
              (easing (radialVertexDistance sqrtQ o distance c (o.heightSegments / 2)
                / edgeRadius o distance))
              (g.getD (o.heightSegments / 2 * (o.widthSegments + 1) + c) 0)| := by
  have hmem : ((c, o.heightSegments / 2) : ℕ × ℕ)
      ∈ pairList (o.widthSegments + 1) (radialHalfCount (o.heightSegments + 1)) := by
    rw [mem_pairList]
    refine ⟨hc, ?_⟩
    unfold radialHalfCount
    omega
  have hcount := List.count_eq_one_of_mem
    (pairList_nodup (o.widthSegments + 1) (radialHalfCount (o.heightSegments + 1))) hmem
  have hmain : (RadialEdges sqrtQ g o direction distance easing).getD
      (o.heightSegments / 2 * (o.widthSegments + 1) + c) 0
      = pushVal direction (if direction then o.maxHeight else o.minHeight)
          (easing (radialVertexDistance sqrtQ o distance c (o.heightSegments / 2)
            / edgeRadius o distance))
          (pushVal direction (if direction then o.maxHeight else o.minHeight)
            (easing (radialVertexDistance sqrtQ o distance c (o.heightSegments / 2)
              / edgeRadius o distance))
            (g.getD (o.heightSegments / 2 * (o.widthSegments + 1) + c) 0)) := by
    unfold RadialEdges
    refine foldl_getD_single (radialBody sqrtQ o direction distance easing)
      (o.heightSegments / 2 * (o.widthSegments + 1) + c)
      (c, o.heightSegments / 2)
      (fun w => pushVal direction (if direction then o.maxHeight else o.minHeight)
        (easing (radialVertexDistance sqrtQ o distance c (o.heightSegments / 2)
          / edgeRadius o distance))
        (pushVal direction (if direction then o.maxHeight else o.minHeight)
          (easing (radialVertexDistance sqrtQ o distance c (o.heightSegments / 2)
            / edgeRadius o distance)) w))
      ((o.widthSegments + 1) * (o.heightSegments + 1))
      (fun h p => radialBody_length sqrtQ o direction distance easing h p)
      (fun h hh => radialBody_getD_center sqrtQ o direction distance easing c hc heven
        (not_lt.mpr hskip) h hh)
      (pairList (o.widthSegments + 1) (radialHalfCount (o.heightSegments + 1)))
      hcount ?_ g hlen
    intro p hp hpne h
    exact radialBody_getD_other sqrtQ o direction distance easing c hc heven p
      ((mem_pairList _ _ p).mp hp).1 ((mem_pairList _ _ p).mp hp).2 hpne h
  refine ⟨hmain, ?_⟩
  rw [hmain]
  have ht0 : 0 ≤ radialVertexDistance sqrtQ o distance c (o.heightSegments / 2)
      / edgeRadius o distance := div_nonneg hskip (le_of_lt hrad)
  have ht1 : radialVertexDistance sqrtQ o distance c (o.heightSegments / 2)
      / edgeRadius o distance ≤ 1 :=
    (div_le_one hrad).mpr (radialVertexDistance_le sqrtQ o distance c _)
  have he := heas _ ht0 ht1
  exact pushVal_step_closer direction _ _ _ he.1 he.2

/-- Witness for `radialEdges_center_row_double`: a 3×3 grid of zeroes
(widthSegments = heightSegments = 2, width = height = 2, maxHeight 10,
minHeight 0), `sqrtQ` the identity, `distance = 0`, identity easing,
center-row cell `c = 1` (grid index 4): the multiplier is `1/2` and the
cell rises to `5` after one push and `15/2` after the double push. -/
theorem radialEdges_center_row_double_witness :
    1 < 2 + 1 ∧ (2 : ℕ) % 2 = 0 ∧
    (List.replicate 9 (0 : ℚ)).length = (2 + 1) * (2 + 1) ∧
    0 ≤ radialVertexDistance (fun q => q) ⟨2, 2, 2, 2, 10, 0⟩ 0 1 (2 / 2) ∧
    0 < edgeRadius ⟨2, 2, 2, 2, 10, 0⟩ 0 ∧
    (RadialEdges (fun q => q) (List.replicate 9 (0 : ℚ)) ⟨2, 2, 2, 2, 10, 0⟩
        true 0 Linear).getD (2 / 2 * (2 + 1) + 1) 0
      = pushVal true (if true then (10 : ℚ) else 0)
          (Linear (radialVertexDistance (fun q => q) ⟨2, 2, 2, 2, 10, 0⟩ 0 1 (2 / 2)
            / edgeRadius ⟨2, 2, 2, 2, 10, 0⟩ 0))
          (pushVal true (if true then (10 : ℚ) else 0)
            (Linear (radialVertexDistance (fun q => q) ⟨2, 2, 2, 2, 10, 0⟩ 0 1 (2 / 2)
              / edgeRadius ⟨2, 2, 2, 2, 10, 0⟩ 0))
            ((List.replicate 9 (0 : ℚ)).getD (2 / 2 * (2 + 1) + 1) 0)) := by
  refine ⟨by decide, by decide, by decide, ?_, ?_, ?_⟩
  · with_unfolding_all decide
  · with_unfolding_all decide
  · exact (radialEdges_center_row_double (fun q => q) (List.replicate 9 (0 : ℚ))
      ⟨2, 2, 2, 2, 10, 0⟩ true 0 Linear 1 (by decide) (by decide) (by decide)
      (by with_unfolding_all decide) (fun t h1 h2 => ⟨h1, h2⟩)
      (by with_unfolding_all decide)).1
